import Mathlib

/-!
Shallow embedding of the `axvma` crate (`src/lib.rs`): file-backed
virtual-memory-area (VMA) management.

Modelling conventions:
* virtual addresses (`usize` / `VirtAddr`) are `Nat`;
* file offsets (`isize`) are `Int`; file lengths (`u64`) are `Nat`;
* the `BTreeSet<VirtAddr>` of populated pages is a `Finset Nat`
  (the code never depends on iteration order);
* `LinuxResult<T>` is `Except LinuxError T`;
* unchecked `usize` subtraction is `checkedSub`, whose `none` result models
  the arithmetic-underflow panic of `a - b` when `b > a`; operations that can
  hit such a subtraction return `Option (...)`, `none` meaning the panic;
* the per-region `Mutex` disappears: each operation acts on the region value
  it is given and returns the updated populated set explicitly.
-/

/-- Subset of `axerrno::LinuxError` relevant to this crate: `EFAULT` is the
"already populated" failure, `EINVAL` the "invalid mapping" failure, the rest
stand for I/O failures surfaced by the file capability. -/
inductive LinuxError where
  | EFAULT
  | EINVAL
  | ENOSPC
  | EBADF
  deriving DecidableEq, Repr

/-- `memory_addr::VirtAddrRange`, a half-open interval `[start, stop)` of
virtual addresses.  The field `stop` models the Rust field `end` (a Lean
keyword). -/
structure VirtAddrRange where
  start : Nat
  stop : Nat
  deriving DecidableEq, Repr

namespace VirtAddrRange

/-- `AddrRange::from_start_size(start, size)`. -/
def from_start_size (start size : Nat) : VirtAddrRange :=
  ⟨start, start + size⟩

/-- `AddrRange::contains(addr)`: `self.start <= addr && addr < self.end`. -/
def contains (r : VirtAddrRange) (addr : Nat) : Bool :=
  decide (r.start ≤ addr) && decide (addr < r.stop)

/-- `AddrRange::overlaps(other)`: `self.start < other.end && other.start < self.end`. -/
def overlaps (r other : VirtAddrRange) : Bool :=
  decide (r.start < other.stop) && decide (other.start < r.stop)

end VirtAddrRange

/-- `page_table_multiarch::PageSize`. -/
inductive PageSize where
  | Size4K
  | Size2M
  | Size1G
  deriving DecidableEq, Repr

/-- The numeric value of a page size (`self.align as usize` in Rust). -/
def PageSize.toNat : PageSize → Nat
  | .Size4K => 0x1000
  | .Size2M => 0x200000
  | .Size1G => 0x40000000

/-- `memory_addr` `align_down(addr, align)`: for the power-of-two values of
`PageSize`, the Rust bitmask `addr & !(align - 1)` is rounding down to a
multiple of `align`. -/
def alignDown (addr align : Nat) : Nat :=
  addr / align * align

/-- Checked `usize` subtraction; `none` models the underflow panic of the
Rust expression `a - b` when `b > a`. -/
def checkedSub (a b : Nat) : Option Nat :=
  if b ≤ a then some (a - b) else none

/-- The `VmFile` capability.  `read_at buf offset` consumes the buffer passed
by the caller (get_buf passes a zero-initialised one) and yields the byte
count the implementation reports together with the buffer contents after the
call; `len` is the file-length query.  A Rust implementation can fill the
slice with any bytes and report any count, but cannot resize the slice; that
slice guarantee is `read_preserves_length` below, used as a hypothesis where
a claim needs it. -/
structure VmFile where
  read_at : List Nat → Nat → Except LinuxError (Nat × List Nat)
  len : Except LinuxError Nat

/-- The Rust borrow of `&mut [u8]` cannot change the buffer's length, only
its contents; a `VmFile` model is faithful to the trait only if it satisfies
this. -/
def VmFile.read_preserves_length (f : VmFile) : Prop :=
  ∀ buf off n out, f.read_at buf off = .ok (n, out) → out.length = buf.length

/-- Default-method `VmFile::is_empty`: `Ok(self.len()? == 0)`. -/
def VmFile.is_empty (f : VmFile) : Except LinuxError Bool :=
  f.len.map (fun n => n == 0)

/-- `MmapRegion`: one file-backed mapping segment. -/
structure MmapRegion where
  range : VirtAddrRange
  file : VmFile
  offset : Int
  populated : Finset Nat
  align : PageSize

namespace MmapRegion

/-- `MmapRegion::new(range, file, offset, align)`: empty populated set. -/
def new (range : VirtAddrRange) (file : VmFile) (offset : Int) (align : PageSize) :
    MmapRegion :=
  ⟨range, file, offset, ∅, align⟩

/-- `MmapRegion::contains(vaddr)`. -/
def contains (r : MmapRegion) (vaddr : Nat) : Bool :=
  r.range.contains vaddr

/-- `MmapRegion::overlaps(range)`. -/
def overlaps (r : MmapRegion) (range : VirtAddrRange) : Bool :=
  r.range.overlaps range

/-- The `create_segment` closure inside `split_at_range`: a segment over
`segment_range` sharing the file, with offset shifted by the segment's start
distance and the populated snapshot filtered to the segment's interval. -/
def create_segment (r : MmapRegion) (segment_range : VirtAddrRange) : MmapRegion :=
  { range := segment_range
    file := r.file
    offset := r.offset + ((segment_range.start - r.range.start : Nat) : Int)
    populated := r.populated.filter (fun page => segment_range.contains page = true)
    align := r.align }

/-- `MmapRegion::split_at_range(range)`, returning
`(before_segment, overlap_segment, after_segment)`. -/
def split_at_range (r : MmapRegion) (range : VirtAddrRange) :
    Option MmapRegion × Option MmapRegion × Option MmapRegion :=
  if r.overlaps range = false then (none, none, none)
  else
    let before :=
      if r.range.start < range.start then
        some (r.create_segment
          (VirtAddrRange.from_start_size r.range.start (range.start - r.range.start)))
      else none
    let after :=
      if range.stop < r.range.stop then
        some (r.create_segment
          (VirtAddrRange.from_start_size range.stop (r.range.stop - range.stop)))
      else none
    let overlap_start := max r.range.start range.start
    let overlap_end := min r.range.stop range.stop
    let overlap :=
      if overlap_start < overlap_end then
        some (r.create_segment
          (VirtAddrRange.from_start_size overlap_start (overlap_end - overlap_start)))
      else none
    (before, overlap, after)

/-- `MmapRegion::get_buf(vaddr)`.  The result pairs the `LinuxResult<Vec<u8>>`
with the populated set after the call; the outer `none` is the underflow
panic of one of the two unchecked address subtractions. -/
def get_buf (r : MmapRegion) (vaddr : Nat) :
    Option (Except LinuxError (List Nat) × Finset Nat) :=
  let page_addr := alignDown vaddr r.align.toNat
  if page_addr ∈ r.populated then some (.error .EFAULT, r.populated)
  else
    match checkedSub page_addr r.range.start with
    | none => none
    | some page_offset =>
      let file_offset : Int := r.offset + (page_offset : Int)
      if file_offset < 0 then some (.error .EINVAL, r.populated)
      else
        match r.file.len with
        | .error e => some (.error e, r.populated)
        | .ok flen =>
          if (flen : Int) ≤ file_offset then some (.error .EINVAL, r.populated)
          else
            match checkedSub r.range.stop page_addr with
            | none => none
            | some remaining =>
              let buf_size := min r.align.toNat remaining
              match r.file.read_at (List.replicate buf_size 0) file_offset.toNat with
              | .error e => some (.error e, r.populated)
              | .ok (_, buf) => some (.ok buf, insert page_addr r.populated)

end MmapRegion

/-- `VmaManager`: an ordered collection of regions. -/
structure VmaManager where
  regions : List MmapRegion

namespace VmaManager

/-- `VmaManager::new()`. -/
def new : VmaManager := ⟨[]⟩

/-- `VmaManager::clear()`. -/
def clear (_m : VmaManager) : VmaManager := ⟨[]⟩

/-- `VmaManager::add_region(region)`: push, always `Ok`. -/
def add_region (m : VmaManager) (region : MmapRegion) : Except LinuxError VmaManager :=
  .ok ⟨m.regions ++ [region]⟩

/-- `VmaManager::find_region(vaddr)`: first region containing the address. -/
def find_region (m : VmaManager) (vaddr : Nat) : Option MmapRegion :=
  m.regions.find? (fun r => r.contains vaddr)

/-- One iteration of the `for region in self.regions.drain(..)` loop of
`remove_overlapped`, acting on the (removed, retained) accumulators: an
overlapping region is split, its overlap segment pushed onto removed and its
before/after segments onto retained; a non-overlapping region is pushed onto
retained unchanged. -/
def remove_step (vaddr_range : VirtAddrRange)
    (acc : List MmapRegion × List MmapRegion) (region : MmapRegion) :
    List MmapRegion × List MmapRegion :=
  if region.overlaps vaddr_range then
    match region.split_at_range vaddr_range with
    | (before, overlap, after) =>
      let removed := match overlap with
        | some o => acc.1 ++ [o]
        | none => acc.1
      let retained := match before with
        | some b => acc.2 ++ [b]
        | none => acc.2
      let retained := match after with
        | some a => retained ++ [a]
        | none => retained
      (removed, retained)
  else (acc.1, acc.2 ++ [region])

/-- `VmaManager::remove_overlapped(vaddr_range)`: the `drain` loop, returning
the removed (overlap) segments and the manager holding the retained ones. -/
def remove_overlapped (m : VmaManager) (vaddr_range : VirtAddrRange) :
    List MmapRegion × VmaManager :=
  let res := m.regions.foldl (remove_step vaddr_range) ([], [])
  (res.1, ⟨res.2⟩)

end VmaManager

/-! ### Range-level lemmas -/

namespace VirtAddrRange

theorem contains_iff {r : VirtAddrRange} {a : Nat} :
    r.contains a = true ↔ r.start ≤ a ∧ a < r.stop := by
  simp [contains]

theorem overlaps_iff {r o : VirtAddrRange} :
    r.overlaps o = true ↔ r.start < o.stop ∧ o.start < r.stop := by
  simp [overlaps]

theorem overlaps_comm (r o : VirtAddrRange) : r.overlaps o = o.overlaps r := by
  simp only [overlaps]
  by_cases h1 : r.start < o.stop <;> by_cases h2 : o.start < r.stop <;> simp [h1, h2]

theorem from_start_size_of_le {a b : Nat} (h : a ≤ b) :
    from_start_size a (b - a) = ⟨a, b⟩ := by
  have hb : a + (b - a) = b := by omega
  simp [from_start_size, hb]

end VirtAddrRange

/-- Membership in a conditional singleton list. -/
theorem mem_ite_singleton {α : Type} {c : Prop} [Decidable c] {x s : α} :
    (s ∈ if c then [x] else []) ↔ c ∧ s = x := by
  split_ifs with h <;> simp [h, eq_comm]

/-- `Option.toList` of a conditional `some`. -/
theorem toList_ite {α : Type} {c : Prop} [Decidable c] (x : α) :
    (if c then some x else none).toList = (if c then [x] else []) := by
  split_ifs <;> rfl

/-! ### split_at_range characterization -/

namespace MmapRegion

theorem create_segment_range (r : MmapRegion) (rg : VirtAddrRange) :
    (r.create_segment rg).range = rg := rfl

theorem create_segment_populated (r : MmapRegion) (rg : VirtAddrRange) :
    (r.create_segment rg).populated =
      r.populated.filter (fun page => rg.contains page = true) := rfl

theorem overlaps_spec {r : MmapRegion} {vr : VirtAddrRange} (h : r.overlaps vr = true) :
    r.range.start < vr.stop ∧ vr.start < r.range.stop := by
  simpa only [MmapRegion.overlaps, VirtAddrRange.overlaps_iff] using h

theorem split_at_range_of_overlaps_false {r : MmapRegion} {vr : VirtAddrRange}
    (h : r.overlaps vr = false) : r.split_at_range vr = (none, none, none) := by
  simp [split_at_range, h]

theorem split_before_eq {r : MmapRegion} {vr : VirtAddrRange} (h : r.overlaps vr = true) :
    (r.split_at_range vr).1 =
      if r.range.start < vr.start
      then some (r.create_segment ⟨r.range.start, vr.start⟩) else none := by
  have hne : ¬ (r.overlaps vr = false) := by simp [h]
  rw [split_at_range, if_neg hne]
  dsimp only
  split_ifs with hlt
  · rw [VirtAddrRange.from_start_size_of_le hlt.le]
  · rfl

theorem split_overlap_eq {r : MmapRegion} {vr : VirtAddrRange} (h : r.overlaps vr = true) :
    (r.split_at_range vr).2.1 =
      if max r.range.start vr.start < min r.range.stop vr.stop
      then some (r.create_segment
        ⟨max r.range.start vr.start, min r.range.stop vr.stop⟩) else none := by
  have hne : ¬ (r.overlaps vr = false) := by simp [h]
  rw [split_at_range, if_neg hne]
  dsimp only
  split_ifs with hlt
  · rw [VirtAddrRange.from_start_size_of_le hlt.le]
  · rfl

theorem split_after_eq {r : MmapRegion} {vr : VirtAddrRange} (h : r.overlaps vr = true) :
    (r.split_at_range vr).2.2 =
      if vr.stop < r.range.stop
      then some (r.create_segment ⟨vr.stop, r.range.stop⟩) else none := by
  have hne : ¬ (r.overlaps vr = false) := by simp [h]
  rw [split_at_range, if_neg hne]
  dsimp only
  split_ifs with hlt
  · rw [VirtAddrRange.from_start_size_of_le hlt.le]
  · rfl

/-- The list of segments produced by a `split_at_range` call, in
(before, overlap, after) order. -/
def splitSegs (r : MmapRegion) (vr : VirtAddrRange) : List MmapRegion :=
  (r.split_at_range vr).1.toList ++ (r.split_at_range vr).2.1.toList ++
    (r.split_at_range vr).2.2.toList

theorem splitSegs_eq {r : MmapRegion} {vr : VirtAddrRange} (hov : r.overlaps vr = true) :
    r.splitSegs vr =
      (if r.range.start < vr.start
        then [r.create_segment ⟨r.range.start, vr.start⟩] else []) ++
      (if max r.range.start vr.start < min r.range.stop vr.stop
        then [r.create_segment
          ⟨max r.range.start vr.start, min r.range.stop vr.stop⟩] else []) ++
      (if vr.stop < r.range.stop
        then [r.create_segment ⟨vr.stop, r.range.stop⟩] else []) := by
  simp only [splitSegs, split_before_eq hov, split_overlap_eq hov, split_after_eq hov,
    toList_ite]

theorem mem_splitSegs {r s : MmapRegion} {vr : VirtAddrRange} :
    s ∈ r.splitSegs vr ↔ r.overlaps vr = true ∧
      ((r.range.start < vr.start ∧ s = r.create_segment ⟨r.range.start, vr.start⟩) ∨
       (max r.range.start vr.start < min r.range.stop vr.stop ∧
         s = r.create_segment ⟨max r.range.start vr.start, min r.range.stop vr.stop⟩) ∨
       (vr.stop < r.range.stop ∧ s = r.create_segment ⟨vr.stop, r.range.stop⟩)) := by
  cases hov : r.overlaps vr with
  | false => simp [splitSegs, split_at_range_of_overlaps_false hov]
  | true =>
    rw [splitSegs_eq hov]
    simp only [List.mem_append, mem_ite_singleton, true_and, or_assoc]

theorem splitSegs_range_sub {r s : MmapRegion} {vr : VirtAddrRange}
    (hs : s ∈ r.splitSegs vr) :
    r.range.start ≤ s.range.start ∧ s.range.stop ≤ r.range.stop := by
  rcases mem_splitSegs.mp hs with ⟨hov, hcase⟩
  have hsp := overlaps_spec hov
  rcases hcase with ⟨h, rfl⟩ | ⟨h, rfl⟩ | ⟨h, rfl⟩ <;>
    simp only [create_segment_range] <;> omega

end MmapRegion

namespace MmapRegion

theorem splitSegs_of_overlaps_false {r : MmapRegion} {vr : VirtAddrRange}
    (hov : r.overlaps vr = false) : r.splitSegs vr = [] := by
  simp [splitSegs, split_at_range_of_overlaps_false hov]

/-- Filters of one populated set along disjoint intervals are disjoint. -/
theorem populated_filter_disjoint {P : Finset Nat} {A B : VirtAddrRange}
    (h : ∀ p, A.contains p = true → B.contains p = true → False) :
    Disjoint (P.filter (fun p => A.contains p = true))
      (P.filter (fun p => B.contains p = true)) := by
  rw [Finset.disjoint_left]
  intro a ha hb
  rw [Finset.mem_filter] at ha hb
  exact h a ha.2 hb.2

/-- Folding union over segments whose populated sets are filters of one parent
set gives the filter along the union of the segment intervals. -/
theorem foldr_union_filter (P : Finset Nat) :
    ∀ l : List MmapRegion,
      (∀ s ∈ l, s.populated = P.filter (fun p => s.range.contains p = true)) →
      l.foldr (fun s acc => s.populated ∪ acc) ∅ =
        P.filter (fun p => l.any (fun s => s.range.contains p) = true) := by
  intro l
  induction l with
  | nil => intro _; simp
  | cons s t ih =>
    intro h
    simp only [List.foldr_cons, List.any_cons]
    rw [h s (List.mem_cons_self s t), ih (fun x hx => h x (List.mem_cons_of_mem s hx))]
    apply Finset.ext
    intro a
    simp only [Finset.mem_union, Finset.mem_filter, Bool.or_eq_true]
    tauto

end MmapRegion

/-! ### Example instances used by witnesses and counterexamples -/

/-- A trivial file capability: reports length `0x3000`, reads echo the buffer. -/
def exFile : VmFile :=
  ⟨fun buf _ => .ok (buf.length, buf), .ok 0x3000⟩

/-- The spec's end-to-end example region `{range: [0x1000, 0x4000), offset: 0,
align: 0x1000}`. -/
def exRegion : MmapRegion :=
  MmapRegion.new ⟨0x1000, 0x4000⟩ exFile 0 .Size4K

/-- The example region with three populated pages, one per sub-interval of the
`[0x2000, 0x3000)` split. -/
def exRegionP : MmapRegion :=
  { range := ⟨0x1000, 0x4000⟩
    file := exFile
    offset := 0
    populated := {0x1000, 0x2000, 0x3000}
    align := .Size4K }

/-- C4: every sub-region produced by `split_at_range` satisfies
`sub.offset == R.offset + (sub.range.start - R.range.start)` (as integers) and
inherits the parent's file handle and page-size alignment unchanged. -/
theorem split_offset_correct (r : MmapRegion) (vr : VirtAddrRange) :
    ∀ s ∈ r.splitSegs vr,
      s.offset = r.offset + ((s.range.start : Int) - (r.range.start : Int)) ∧
      s.file = r.file ∧ s.align = r.align := by
  intro s hs
  rcases MmapRegion.mem_splitSegs.mp hs with ⟨hov, hcase⟩
  have hsp := MmapRegion.overlaps_spec hov
  rcases hcase with ⟨h, rfl⟩ | ⟨h, rfl⟩ | ⟨h, rfl⟩ <;>
    refine ⟨?_, rfl, rfl⟩ <;>
    simp only [MmapRegion.create_segment] <;>
    omega

/-- Witness for C4 at the spec's example: the overlap segment of splitting
`[0x1000,0x4000)` at `[0x2000,0x3000)`. -/
theorem split_offset_correct_witness :
    ∃ s, s ∈ exRegion.splitSegs ⟨0x2000, 0x3000⟩ ∧
      (s.offset = exRegion.offset + ((s.range.start : Int) - (exRegion.range.start : Int)) ∧
       s.file = exRegion.file ∧ s.align = exRegion.align) := by
  have hmem : exRegion.create_segment ⟨0x2000, 0x3000⟩ ∈ exRegion.splitSegs ⟨0x2000, 0x3000⟩ :=
    MmapRegion.mem_splitSegs.mpr ⟨by decide, Or.inr (Or.inl ⟨by decide, by rfl⟩)⟩
  exact ⟨_, hmem, split_offset_correct exRegion ⟨0x2000, 0x3000⟩ _ hmem⟩

/-- C3: splitting a region at any range gives sub-regions whose populated sets
are exactly the parent's populated addresses falling in each sub-interval;
these sets are pairwise disjoint and their union is the parent set restricted
to the union of the sub-intervals — nothing lost, nothing duplicated. -/
theorem split_populated_conservation (r : MmapRegion) (vr : VirtAddrRange)
    (hvr : vr.start ≤ vr.stop) :
    (∀ s ∈ r.splitSegs vr,
        s.populated = r.populated.filter (fun p => s.range.contains p = true)) ∧
    List.Pairwise (fun s t => Disjoint s.populated t.populated) (r.splitSegs vr) ∧
    (r.splitSegs vr).foldr (fun s acc => s.populated ∪ acc) ∅ =
      r.populated.filter
        (fun p => (r.splitSegs vr).any (fun s => s.range.contains p) = true) := by
  have hpop : ∀ s ∈ r.splitSegs vr,
      s.populated = r.populated.filter (fun p => s.range.contains p = true) := by
    intro s hs
    rcases MmapRegion.mem_splitSegs.mp hs with ⟨hov, hcase⟩
    rcases hcase with ⟨h, rfl⟩ | ⟨h, rfl⟩ | ⟨h, rfl⟩ <;> rfl
  refine ⟨hpop, ?_, MmapRegion.foldr_union_filter r.populated _ hpop⟩
  cases hov : r.overlaps vr with
  | false => simp [MmapRegion.splitSegs_of_overlaps_false hov]
  | true =>
    rw [MmapRegion.splitSegs_eq hov]
    refine List.pairwise_append.mpr ⟨List.pairwise_append.mpr ⟨?_, ?_, ?_⟩, ?_, ?_⟩
    · split_ifs <;> simp
    · split_ifs <;> simp
    · intro a ha b hb
      rw [mem_ite_singleton] at ha hb
      obtain ⟨hc1, rfl⟩ := ha
      obtain ⟨hc2, rfl⟩ := hb
      rw [MmapRegion.create_segment_populated, MmapRegion.create_segment_populated]
      apply MmapRegion.populated_filter_disjoint
      intro p h1 h2
      rw [VirtAddrRange.contains_iff] at h1 h2
      simp only at h1 h2
      omega
    · split_ifs <;> simp
    · intro a ha b hb
      rw [List.mem_append, mem_ite_singleton, mem_ite_singleton] at ha
      rw [mem_ite_singleton] at hb
      obtain ⟨hc2, rfl⟩ := hb
      rcases ha with ⟨hc1, rfl⟩ | ⟨hc1, rfl⟩ <;>
      · rw [MmapRegion.create_segment_populated, MmapRegion.create_segment_populated]
        apply MmapRegion.populated_filter_disjoint
        intro p h1 h2
        rw [VirtAddrRange.contains_iff] at h1 h2
        simp only at h1 h2
        omega

/-- Witness for C3: the example region with three populated pages split at
`[0x2000, 0x3000)`. -/
theorem split_populated_conservation_witness :
    (VirtAddrRange.mk 0x2000 0x3000).start ≤ (VirtAddrRange.mk 0x2000 0x3000).stop ∧
    ((∀ s ∈ exRegionP.splitSegs ⟨0x2000, 0x3000⟩,
        s.populated = exRegionP.populated.filter (fun p => s.range.contains p = true)) ∧
     List.Pairwise (fun s t => Disjoint s.populated t.populated)
       (exRegionP.splitSegs ⟨0x2000, 0x3000⟩) ∧
     (exRegionP.splitSegs ⟨0x2000, 0x3000⟩).foldr (fun s acc => s.populated ∪ acc) ∅ =
       exRegionP.populated.filter
         (fun p =>
           (exRegionP.splitSegs ⟨0x2000, 0x3000⟩).any (fun s => s.range.contains p) = true)) :=
  ⟨by decide, split_populated_conservation exRegionP ⟨0x2000, 0x3000⟩ (by decide)⟩

/-- C5 counterexample: for `R.range = [0x1000, 0x4000)` and the disjoint range
`[0x5000, 0x6000)` we have `R.range.start < range'.start`, yet `split_at_range`
returns no before segment — the claim's unqualified "before present iff
`range.start < range'.start`" contradicts its own no-overlap clause. -/
theorem split_before_iff_counterexample :
    exRegion.range.start < (VirtAddrRange.mk 0x5000 0x6000).start ∧
    (exRegion.split_at_range ⟨0x5000, 0x6000⟩).1 = none := by
  exact ⟨by decide, rfl⟩

/-- C5 (amended): within an overlapping split, the before segment is present
iff `R.range.start < range'.start` and covers `[R.range.start, range'.start)`;
the after segment is present iff `range'.stop < R.range.stop` and covers
`[range'.stop, R.range.stop)`; the overlap segment is present iff the
intersection is non-empty and covers it; a non-overlapping split returns
`(none, none, none)` — a defined no-op, not an error. -/
theorem split_segments_present_iff (r : MmapRegion) (vr : VirtAddrRange) :
    ((r.split_at_range vr).1.isSome = true ↔
      (r.overlaps vr = true ∧ r.range.start < vr.start)) ∧
    (∀ b, (r.split_at_range vr).1 = some b → b.range = ⟨r.range.start, vr.start⟩) ∧
    ((r.split_at_range vr).2.2.isSome = true ↔
      (r.overlaps vr = true ∧ vr.stop < r.range.stop)) ∧
    (∀ a, (r.split_at_range vr).2.2 = some a → a.range = ⟨vr.stop, r.range.stop⟩) ∧
    ((r.split_at_range vr).2.1.isSome = true ↔
      max r.range.start vr.start < min r.range.stop vr.stop) ∧
    (∀ o, (r.split_at_range vr).2.1 = some o →
      o.range = ⟨max r.range.start vr.start, min r.range.stop vr.stop⟩) ∧
    (r.overlaps vr = false → r.split_at_range vr = (none, none, none)) := by
  cases hov : r.overlaps vr with
  | false =>
    have hiff := hov
    simp only [MmapRegion.overlaps, VirtAddrRange.overlaps, Bool.and_eq_false_iff,
      decide_eq_false_iff_not, not_lt] at hiff
    rw [MmapRegion.split_at_range_of_overlaps_false hov]
    refine ⟨by simp, by simp, by simp, by simp, ?_, by simp, fun _ => rfl⟩
    simp only [Option.isSome_none, Bool.false_eq_true, false_iff, not_lt]
    rcases hiff with h | h <;> omega
  | true =>
    refine ⟨?_, ?_, ?_, ?_, ?_, ?_, ?_⟩
    · rw [MmapRegion.split_before_eq hov]
      split_ifs with h <;> simp [hov, h]
    · intro b hb
      rw [MmapRegion.split_before_eq hov] at hb
      split_ifs at hb with h
      cases hb
      rfl
    · rw [MmapRegion.split_after_eq hov]
      split_ifs with h <;> simp [hov, h]
    · intro a ha
      rw [MmapRegion.split_after_eq hov] at ha
      split_ifs at ha with h
      cases ha
      rfl
    · rw [MmapRegion.split_overlap_eq hov]
      split_ifs with h <;> simp [h]
    · intro o ho
      rw [MmapRegion.split_overlap_eq hov] at ho
      split_ifs at ho with h
      cases ho
      rfl
    · intro hfalse
      simp at hfalse

/-- Witness for C5: the example split has a before segment, and a disjoint
range is a no-op. -/
theorem split_segments_present_iff_witness :
    (exRegion.split_at_range ⟨0x2000, 0x3000⟩).1.isSome = true ∧
    exRegion.split_at_range ⟨0x5000, 0x6000⟩ = (none, none, none) :=
  ⟨(split_segments_present_iff exRegion ⟨0x2000, 0x3000⟩).1.mpr ⟨by decide, by decide⟩,
   (split_segments_present_iff exRegion ⟨0x5000, 0x6000⟩).2.2.2.2.2.2 (by decide)⟩

/-! ### remove_overlapped characterization -/

namespace VmaManager

/-- The contribution of one region to `remove_overlapped`'s removed list:
the overlap segment of an overlapping region, nothing otherwise. -/
def removedOf (vr : VirtAddrRange) (r : MmapRegion) : List MmapRegion :=
  if r.overlaps vr then (r.split_at_range vr).2.1.toList else []

/-- The contribution of one region to the manager after `remove_overlapped`:
the before/after segments of an overlapping region, the region itself
otherwise. -/
def retainedOf (vr : VirtAddrRange) (r : MmapRegion) : List MmapRegion :=
  if r.overlaps vr then
    (r.split_at_range vr).1.toList ++ (r.split_at_range vr).2.2.toList
  else [r]

theorem remove_step_eq (vr : VirtAddrRange) (acc : List MmapRegion × List MmapRegion)
    (r : MmapRegion) :
    remove_step vr acc r = (acc.1 ++ removedOf vr r, acc.2 ++ retainedOf vr r) := by
  rcases acc with ⟨rem, ret⟩
  unfold remove_step removedOf retainedOf
  cases hov : r.overlaps vr with
  | false => simp [hov]
  | true =>
    rcases hsp : r.split_at_range vr with ⟨b, oa⟩
    rcases oa with ⟨o, a⟩
    cases b <;> cases o <;> cases a <;> simp [hov, hsp]

theorem foldl_remove_step (vr : VirtAddrRange) :
    ∀ (rs : List MmapRegion) (rem ret : List MmapRegion),
      rs.foldl (remove_step vr) (rem, ret) =
        (rem ++ (rs.map (removedOf vr)).flatten,
         ret ++ (rs.map (retainedOf vr)).flatten) := by
  intro rs
  induction rs with
  | nil => intro rem ret; simp
  | cons r t ih =>
    intro rem ret
    simp only [List.foldl_cons, remove_step_eq, List.map_cons, List.flatten_cons]
    rw [ih]
    simp [List.append_assoc]

theorem remove_overlapped_eq (m : VmaManager) (vr : VirtAddrRange) :
    m.remove_overlapped vr =
      ((m.regions.map (removedOf vr)).flatten,
       ⟨(m.regions.map (retainedOf vr)).flatten⟩) := by
  unfold remove_overlapped
  rw [foldl_remove_step]
  simp

end VmaManager

/-- C2: `remove_overlapped` keeps every non-overlapping region in place
unchanged; an overlapping region is replaced by its `split_at_range` segments,
the overlap segment going to the removed list and the before/after segments
staying in the manager (this is `removedOf`/`retainedOf` per region, in
order); the spec's end-to-end scenario for `R = {range: [0x1000, 0x4000),
offset: 0, align: 0x1000}` and removal of `[0x2000, 0x3000)` produces exactly
the stated segments. -/
theorem remove_overlapped_spec :
    (∀ (m : VmaManager) (vr : VirtAddrRange),
      (m.remove_overlapped vr).1 = (m.regions.map (VmaManager.removedOf vr)).flatten ∧
      (m.remove_overlapped vr).2.regions =
        (m.regions.map (VmaManager.retainedOf vr)).flatten) ∧
    ((VmaManager.mk [exRegion]).remove_overlapped ⟨0x2000, 0x3000⟩).1.map
        (fun r => (r.range, r.offset)) = [(⟨0x2000, 0x3000⟩, 0x1000)] ∧
    ((VmaManager.mk [exRegion]).remove_overlapped ⟨0x2000, 0x3000⟩).2.regions.map
        (fun r => (r.range, r.offset)) =
      [(⟨0x1000, 0x2000⟩, 0), (⟨0x3000, 0x4000⟩, 0x2000)] := by
  refine ⟨?_, by decide, by decide⟩
  intro m vr
  rw [VmaManager.remove_overlapped_eq]
  exact ⟨rfl, rfl⟩

namespace VmaManager

theorem mem_removedOf_sub_vr {vr : VirtAddrRange} {r s : MmapRegion}
    (hs : s ∈ removedOf vr r) :
    vr.start ≤ s.range.start ∧ s.range.stop ≤ vr.stop := by
  unfold removedOf at hs
  split_ifs at hs with hov
  · rw [MmapRegion.split_overlap_eq hov, toList_ite, mem_ite_singleton] at hs
    obtain ⟨h, rfl⟩ := hs
    simp only [MmapRegion.create_segment_range]
    omega
  · cases hs

theorem mem_removedOf_mem_splitSegs {vr : VirtAddrRange} {r s : MmapRegion}
    (hs : s ∈ removedOf vr r) : s ∈ r.splitSegs vr := by
  unfold removedOf at hs
  split_ifs at hs with hov
  · simp only [MmapRegion.splitSegs, List.mem_append]
    exact Or.inl (Or.inr hs)
  · cases hs

theorem mem_retainedOf_cases {vr : VirtAddrRange} {r s : MmapRegion}
    (hs : s ∈ retainedOf vr r) : s = r ∨ s ∈ r.splitSegs vr := by
  unfold retainedOf at hs
  split_ifs at hs with hov
  · right
    simp only [MmapRegion.splitSegs, List.mem_append]
    rw [List.mem_append] at hs
    tauto
  · left
    simpa using hs

theorem mem_retainedOf_sub {vr : VirtAddrRange} {r s : MmapRegion}
    (hs : s ∈ retainedOf vr r) :
    r.range.start ≤ s.range.start ∧ s.range.stop ≤ r.range.stop := by
  rcases mem_retainedOf_cases hs with rfl | hmem
  · exact ⟨le_refl _, le_refl _⟩
  · exact MmapRegion.splitSegs_range_sub hmem

theorem mem_removedOf_sub {vr : VirtAddrRange} {r s : MmapRegion}
    (hs : s ∈ removedOf vr r) :
    r.range.start ≤ s.range.start ∧ s.range.stop ≤ r.range.stop :=
  MmapRegion.splitSegs_range_sub (mem_removedOf_mem_splitSegs hs)

theorem mem_retainedOf_nonoverlap_vr {vr : VirtAddrRange} {r s : MmapRegion}
    (hs : s ∈ retainedOf vr r) : s.range.overlaps vr = false := by
  unfold retainedOf at hs
  split_ifs at hs with hov
  · rw [List.mem_append] at hs
    rcases hs with hs | hs
    · rw [MmapRegion.split_before_eq hov, toList_ite, mem_ite_singleton] at hs
      obtain ⟨h, rfl⟩ := hs
      simp [MmapRegion.create_segment_range, VirtAddrRange.overlaps]
    · rw [MmapRegion.split_after_eq hov, toList_ite, mem_ite_singleton] at hs
      obtain ⟨h, rfl⟩ := hs
      simp [MmapRegion.create_segment_range, VirtAddrRange.overlaps]
  · have hs' : s = r := by simpa using hs
    subst hs'
    simp only [Bool.not_eq_true] at hov
    exact hov

end VmaManager

/-- Overlap is monotone under interval enlargement. -/
theorem overlaps_mono {a b A B : VirtAddrRange}
    (ha : A.start ≤ a.start ∧ a.stop ≤ A.stop)
    (hb : B.start ≤ b.start ∧ b.stop ≤ B.stop)
    (h : a.overlaps b = true) : A.overlaps B = true := by
  rw [VirtAddrRange.overlaps_iff] at h ⊢
  omega

/-- Disjointness is antitone under interval enlargement. -/
theorem nonoverlap_mono {a b A B : VirtAddrRange}
    (ha : A.start ≤ a.start ∧ a.stop ≤ A.stop)
    (hb : B.start ≤ b.start ∧ b.stop ≤ B.stop)
    (h : A.overlaps B = false) : a.overlaps b = false := by
  cases hab : a.overlaps b with
  | false => rfl
  | true => simp [overlaps_mono ha hb hab] at h

theorem overlaps_symm_false {A B : VirtAddrRange} (h : A.overlaps B = false) :
    B.overlaps A = false := by
  rw [VirtAddrRange.overlaps_comm]
  exact h

/-- Two members of a pairwise-related list are equal or related one way. -/
theorem pairwise_mem_cases {α : Type} {Q : α → α → Prop} {l : List α}
    (hp : l.Pairwise Q) {x y : α} (hx : x ∈ l) (hy : y ∈ l) :
    x = y ∨ Q x y ∨ Q y x := by
  by_cases hxy : x = y
  · exact Or.inl hxy
  · have hp' : l.Pairwise (fun a b => Q a b ∨ Q b a) := hp.imp (fun h => Or.inl h)
    have hsym : Symmetric (fun a b : α => Q a b ∨ Q b a) := fun a b h => h.symm
    exact Or.inr (hp'.forall hsym hx hy hxy)

namespace VmaManager

/-- The segments a single region leaves in the manager never overlap each
other. -/
theorem retainedOf_pairwise {vr : VirtAddrRange} (hvr : vr.start ≤ vr.stop)
    (r : MmapRegion) :
    (retainedOf vr r).Pairwise (fun x y => x.range.overlaps y.range = false) := by
  unfold retainedOf
  split_ifs with hov
  · rw [MmapRegion.split_before_eq hov, MmapRegion.split_after_eq hov,
      toList_ite, toList_ite]
    refine List.pairwise_append.mpr ⟨?_, ?_, ?_⟩
    · split_ifs <;> simp
    · split_ifs <;> simp
    · intro x hx y hy
      rw [mem_ite_singleton] at hx hy
      obtain ⟨h1, rfl⟩ := hx
      obtain ⟨h2, rfl⟩ := hy
      simp only [MmapRegion.create_segment_range, VirtAddrRange.overlaps,
        Bool.and_eq_false_iff, decide_eq_false_iff_not, not_lt]
      right
      exact hvr
  · simp
end VmaManager

/-- C1: starting from pairwise-disjoint regions, `remove_overlapped` leaves
the manager's regions pairwise disjoint, and every removed region is disjoint
from every retained region. -/
theorem remove_overlapped_disjointness (m : VmaManager) (vr : VirtAddrRange)
    (hvr : vr.start ≤ vr.stop)
    (hdisj : m.regions.Pairwise (fun x y => x.range.overlaps y.range = false)) :
    (m.remove_overlapped vr).2.regions.Pairwise
      (fun x y => x.range.overlaps y.range = false) ∧
    ∀ s ∈ (m.remove_overlapped vr).1, ∀ t ∈ (m.remove_overlapped vr).2.regions,
      s.range.overlaps t.range = false := by
  rw [VmaManager.remove_overlapped_eq]
  constructor
  · rw [List.pairwise_flatten]
    constructor
    · intro l hl
      rw [List.mem_map] at hl
      obtain ⟨r, hr, rfl⟩ := hl
      exact VmaManager.retainedOf_pairwise hvr r
    · rw [List.pairwise_map]
      refine hdisj.imp_of_mem ?_
      intro r1 r2 h1 h2 hno x hx y hy
      exact nonoverlap_mono (VmaManager.mem_retainedOf_sub hx)
        (VmaManager.mem_retainedOf_sub hy) hno
  · intro s hs t ht
    rw [List.mem_flatten] at hs ht
    obtain ⟨ls, hls, hsl⟩ := hs
    obtain ⟨lt, hlt, htl⟩ := ht
    rw [List.mem_map] at hls hlt
    obtain ⟨r1, hr1, rfl⟩ := hls
    obtain ⟨r2, hr2, rfl⟩ := hlt
    rcases pairwise_mem_cases hdisj hr1 hr2 with rfl | hno | hno
    · have hsv := VmaManager.mem_removedOf_sub_vr hsl
      have htn := VmaManager.mem_retainedOf_nonoverlap_vr htl
      cases hst : s.range.overlaps t.range with
      | false => rfl
      | true =>
        have hvt : vr.overlaps t.range = true :=
          overlaps_mono ⟨hsv.1, hsv.2⟩ ⟨le_refl _, le_refl _⟩ hst
        rw [VirtAddrRange.overlaps_comm] at hvt
        simp [htn] at hvt
    · exact nonoverlap_mono (VmaManager.mem_removedOf_sub hsl)
        (VmaManager.mem_retainedOf_sub htl) hno
    · exact nonoverlap_mono (VmaManager.mem_removedOf_sub hsl)
        (VmaManager.mem_retainedOf_sub htl) (overlaps_symm_false hno)

/-- A second disjoint example region, to the right of `exRegion`. -/
def exRegion2 : MmapRegion :=
  MmapRegion.new ⟨0x5000, 0x6000⟩ exFile 0x4000 .Size4K

/-- Witness for C1: a two-region manager, removing a range that splits the
first region. -/
theorem remove_overlapped_disjointness_witness :
    ((VirtAddrRange.mk 0x2000 0x3000).start ≤ (VirtAddrRange.mk 0x2000 0x3000).stop ∧
      (VmaManager.mk [exRegion, exRegion2]).regions.Pairwise
        (fun x y => x.range.overlaps y.range = false)) ∧
    (((VmaManager.mk [exRegion, exRegion2]).remove_overlapped
        ⟨0x2000, 0x3000⟩).2.regions.Pairwise
      (fun x y => x.range.overlaps y.range = false) ∧
     ∀ s ∈ ((VmaManager.mk [exRegion, exRegion2]).remove_overlapped
        ⟨0x2000, 0x3000⟩).1,
       ∀ t ∈ ((VmaManager.mk [exRegion, exRegion2]).remove_overlapped
          ⟨0x2000, 0x3000⟩).2.regions,
         s.range.overlaps t.range = false) :=
  ⟨⟨by decide, by decide⟩,
   remove_overlapped_disjointness (VmaManager.mk [exRegion, exRegion2])
     ⟨0x2000, 0x3000⟩ (by decide) (by decide)⟩

/-! ### get_buf -/

theorem checkedSub_of_le {a b : Nat} (h : b ≤ a) : checkedSub a b = some (a - b) :=
  if_pos h

theorem checkedSub_of_gt {a b : Nat} (h : a < b) : checkedSub a b = none := by
  unfold checkedSub
  rw [if_neg (by omega)]

namespace MmapRegion

/-- `get_buf` after the populated check and the first (non-underflowing)
address subtraction. -/
theorem get_buf_cases (r : MmapRegion) (vaddr : Nat) (p : Nat)
    (hpage : alignDown vaddr r.align.toNat = p)
    (hp : p ∉ r.populated) (hstart : r.range.start ≤ p) :
    r.get_buf vaddr =
      if r.offset + ((p - r.range.start : Nat) : Int) < 0 then
        some (.error .EINVAL, r.populated)
      else
        match r.file.len with
        | .error e => some (.error e, r.populated)
        | .ok flen =>
          if (flen : Int) ≤ r.offset + ((p - r.range.start : Nat) : Int) then
            some (.error .EINVAL, r.populated)
          else
            match checkedSub r.range.stop p with
            | none => none
            | some remaining =>
              match r.file.read_at (List.replicate (min r.align.toNat remaining) 0)
                  (r.offset + ((p - r.range.start : Nat) : Int)).toNat with
              | .error e => some (.error e, r.populated)
              | .ok (_, buf) => some (.ok buf, insert p r.populated) := by
  unfold get_buf
  rw [hpage, if_neg hp, checkedSub_of_le hstart]

end MmapRegion

/-- A region whose range sits above the page used in the C6/C10
counterexamples. -/
def exRegionHigh : MmapRegion :=
  MmapRegion.new ⟨0x2000, 0x3000⟩ exFile 0 .Size4K

/-- C6 counterexample: for the unpopulated page `0x1000` below
`range.start = 0x2000` the computed file offset `0 + (0x1000 - 0x2000)` is
negative, so the claim predicts an "invalid mapping" (`EINVAL`) failure — but
`get_buf` hits the unchecked `page_addr - range.start` underflow first
(modelled as `none`), returning no defined error at all. -/
theorem get_buf_invalid_mapping_counterexample :
    alignDown 0x1000 PageSize.Size4K.toNat ∉ exRegionHigh.populated ∧
    exRegionHigh.offset + ((0x1000 : Int) - (exRegionHigh.range.start : Int)) < 0 ∧
    exRegionHigh.get_buf 0x1000 = none := by
  refine ⟨by decide, by decide, rfl⟩

/-- C6 (amended): for an unpopulated page at or above `range.start`, when the
length query answers `flen` and the file's `read_at` never itself fails with
`EINVAL`, `get_buf` fails with the "invalid mapping" error `EINVAL` iff the
computed file offset `offset + (p - range.start)` is negative or `≥ flen`;
moreover every failing `get_buf` call leaves the populated set unchanged and
the page unmarked. -/
theorem get_buf_invalid_mapping (r : MmapRegion) (vaddr : Nat) (p flen : Nat)
    (hpage : alignDown vaddr r.align.toNat = p)
    (hp : p ∉ r.populated) (hstart : r.range.start ≤ p)
    (hlen : r.file.len = .ok flen)
    (hread : ∀ buf off, r.file.read_at buf off ≠ .error .EINVAL) :
    ((∃ s, r.get_buf vaddr = some (.error .EINVAL, s)) ↔
      (r.offset + ((p - r.range.start : Nat) : Int) < 0 ∨
       (flen : Int) ≤ r.offset + ((p - r.range.start : Nat) : Int))) ∧
    (∀ e s, r.get_buf vaddr = some (.error e, s) → s = r.populated ∧ p ∉ s) := by
  rw [MmapRegion.get_buf_cases r vaddr p hpage hp hstart, hlen]
  by_cases h1 : r.offset + ((p - r.range.start : Nat) : Int) < 0
  · rw [if_pos h1]
    refine ⟨⟨fun _ => Or.inl h1, fun _ => ⟨r.populated, rfl⟩⟩, ?_⟩
    intro e s hes
    simp only [Option.some.injEq, Prod.mk.injEq] at hes
    exact ⟨hes.2.symm, hes.2 ▸ hp⟩
  · rw [if_neg h1]
    dsimp only
    by_cases h2 : (flen : Int) ≤ r.offset + ((p - r.range.start : Nat) : Int)
    · rw [if_pos h2]
      refine ⟨⟨fun _ => Or.inr h2, fun _ => ⟨r.populated, rfl⟩⟩, ?_⟩
      intro e s hes
      simp only [Option.some.injEq, Prod.mk.injEq] at hes
      exact ⟨hes.2.symm, hes.2 ▸ hp⟩
    · rw [if_neg h2]
      rcases hcs : checkedSub r.range.stop p with _ | remaining
      · dsimp only
        refine ⟨⟨fun h => absurd h.choose_spec (by simp), fun h => ?_⟩, fun e s hes => ?_⟩
        · rcases h with h | h
          · exact absurd h h1
          · exact absurd h h2
        · cases hes
      · dsimp only
        rcases hra : r.file.read_at
            (List.replicate (min r.align.toNat remaining) 0)
            (r.offset + ((p - r.range.start : Nat) : Int)).toNat with e | nb
        · dsimp only
          refine ⟨⟨fun h => ?_, fun h => ?_⟩, fun e' s hes => ?_⟩
          · obtain ⟨s, hs⟩ := h
            simp only [Option.some.injEq, Prod.mk.injEq, Except.error.injEq] at hs
            exact absurd (hs.1 ▸ hra) (hread _ _)
          · rcases h with h | h
            · exact absurd h h1
            · exact absurd h h2
          · simp only [Option.some.injEq, Prod.mk.injEq, Except.error.injEq] at hes
            exact ⟨hes.2.symm, hes.2 ▸ hp⟩
        · rcases nb with ⟨n, buf⟩
          dsimp only
          refine ⟨⟨fun h => ?_, fun h => ?_⟩, fun e' s hes => ?_⟩
          · obtain ⟨s, hs⟩ := h
            simp at hs
          · rcases h with h | h
            · exact absurd h h1
            · exact absurd h h2
          · simp at hes

/-- Witness for C6 (amended): a page whose computed offset is past the file
length fails with `EINVAL`. -/
theorem get_buf_invalid_mapping_witness :
    ∃ s, exRegion.get_buf 0x7000 = some (.error .EINVAL, s) :=
  ((get_buf_invalid_mapping exRegion 0x7000 0x7000 0x3000 (by decide) (by decide)
      (by decide) rfl (fun buf off => by simp [exRegion, MmapRegion.new, exFile])).1).mpr
    (Or.inr (by decide))

/-- A one-page region `[0x1000, 0x1004)` whose tail page is 4 bytes. -/
def exRegionSmall : MmapRegion :=
  MmapRegion.new ⟨0x1000, 0x1004⟩ exFile 0 .Size4K

/-- C7: on an unpopulated in-range page with in-bounds file offset and a
successful read, `get_buf` returns the read buffer — of length
`min(align, range.stop - page_addr)` — and records the page as populated; a
second call on any address of the same page then fails with the "already
populated" error `EFAULT`, because the aligned page is found in the populated
set. -/
theorem get_buf_load_once (r : MmapRegion) (vaddr vaddr2 : Nat) (p flen n : Nat)
    (out : List Nat)
    (hpage : alignDown vaddr r.align.toNat = p)
    (hpage2 : alignDown vaddr2 r.align.toNat = p)
    (hp : p ∉ r.populated)
    (hstart : r.range.start ≤ p) (hstop : p ≤ r.range.stop)
    (hlen : r.file.len = .ok flen)
    (hlo : 0 ≤ r.offset + ((p - r.range.start : Nat) : Int))
    (hhi : r.offset + ((p - r.range.start : Nat) : Int) < (flen : Int))
    (hread : r.file.read_at (List.replicate (min r.align.toNat (r.range.stop - p)) 0)
        (r.offset + ((p - r.range.start : Nat) : Int)).toNat = .ok (n, out))
    (hwb : r.file.read_preserves_length) :
    r.get_buf vaddr = some (.ok out, insert p r.populated) ∧
    out.length = min r.align.toNat (r.range.stop - p) ∧
    ({ r with populated := insert p r.populated } : MmapRegion).get_buf vaddr2 =
      some (.error .EFAULT, insert p r.populated) := by
  refine ⟨?_, ?_, ?_⟩
  · rw [MmapRegion.get_buf_cases r vaddr p hpage hp hstart, hlen]
    rw [if_neg (by omega)]
    dsimp only
    rw [if_neg (by omega), checkedSub_of_le hstop]
    dsimp only
    rw [hread]
  · exact (hwb _ _ _ _ hread).trans (List.length_replicate _ _)
  · unfold MmapRegion.get_buf
    dsimp only
    rw [hpage2, if_pos (Finset.mem_insert_self p r.populated)]

/-- Witness for C7: the 4-byte tail page of `exRegionSmall` loads once and
faults on the second call. -/
theorem get_buf_load_once_witness :
    exRegionSmall.get_buf 0x1001 =
      some (.ok (List.replicate 4 0), insert 0x1000 exRegionSmall.populated) ∧
    (List.replicate 4 (0 : Nat)).length =
      min exRegionSmall.align.toNat (exRegionSmall.range.stop - 0x1000) ∧
    ({ exRegionSmall with
        populated := insert 0x1000 exRegionSmall.populated } : MmapRegion).get_buf 0x1002 =
      some (.error .EFAULT, insert 0x1000 exRegionSmall.populated) :=
  get_buf_load_once exRegionSmall 0x1001 0x1002 0x1000 0x3000 4 (List.replicate 4 0)
    (by decide) (by decide) (by decide) (by decide) (by decide) rfl (by decide) (by decide)
    rfl (fun buf off n out h => by cases h; rfl)

/-- Contents of the 8-byte file behind `shortFile`. -/
def shortContent : List Nat := [1, 2, 3, 4, 5, 6, 7, 8]

/-- A file capability that legally short-reads: it fills only the first byte
of the buffer from `shortContent` and reports 1 byte read. -/
def shortFile : VmFile :=
  ⟨fun buf off => .ok (1, match buf with
      | [] => []
      | _ :: t => shortContent.getD off 0 :: t),
   .ok shortContent.length⟩

/-- A one-page 4-byte region over `shortFile`. -/
def shortRegion : MmapRegion :=
  MmapRegion.new ⟨0x1000, 0x1004⟩ shortFile 0 .Size4K

/-- C9 counterexample: `shortFile.read_at` is a legal short read (1 byte of 4);
`get_buf` succeeds and returns the partially-filled buffer `[1, 0, 0, 0]`,
which is not the 4 bytes of the file at offset 0 — the full read does not
complete. -/
theorem get_buf_full_read_counterexample :
    shortRegion.file.read_at (List.replicate 4 0) 0 = .ok (1, [1, 0, 0, 0]) ∧
    shortRegion.get_buf 0x1000 = some (.ok [1, 0, 0, 0], insert 0x1000 ∅) ∧
    [1, 0, 0, 0] ≠ shortContent.take 4 := by
  refine ⟨rfl, rfl, by decide⟩

/-- C9 (amended): a `get_buf` call that reaches the read step issues exactly
one `read_at` call, on a zero-filled buffer of size
`min(align, range.stop - p)` at the computed offset: an error from that call
is propagated to the caller unchanged (populated set untouched), and on
success the returned buffer is whatever the single call produced — the
reported byte count is ignored, so a short read is not completed. -/
theorem get_buf_single_read (r : MmapRegion) (vaddr : Nat) (p flen : Nat)
    (hpage : alignDown vaddr r.align.toNat = p)
    (hp : p ∉ r.populated)
    (hstart : r.range.start ≤ p) (hstop : p ≤ r.range.stop)
    (hlen : r.file.len = .ok flen)
    (hlo : 0 ≤ r.offset + ((p - r.range.start : Nat) : Int))
    (hhi : r.offset + ((p - r.range.start : Nat) : Int) < (flen : Int)) :
    (∀ e, r.file.read_at (List.replicate (min r.align.toNat (r.range.stop - p)) 0)
        (r.offset + ((p - r.range.start : Nat) : Int)).toNat = .error e →
      r.get_buf vaddr = some (.error e, r.populated)) ∧
    (∀ n out, r.file.read_at (List.replicate (min r.align.toNat (r.range.stop - p)) 0)
        (r.offset + ((p - r.range.start : Nat) : Int)).toNat = .ok (n, out) →
      r.get_buf vaddr = some (.ok out, insert p r.populated)) := by
  constructor
  · intro e hread
    rw [MmapRegion.get_buf_cases r vaddr p hpage hp hstart, hlen]
    rw [if_neg (by omega)]
    dsimp only
    rw [if_neg (by omega), checkedSub_of_le hstop]
    dsimp only
    rw [hread]
  · intro n out hread
    rw [MmapRegion.get_buf_cases r vaddr p hpage hp hstart, hlen]
    rw [if_neg (by omega)]
    dsimp only
    rw [if_neg (by omega), checkedSub_of_le hstop]
    dsimp only
    rw [hread]

/-- A file capability whose reads always fail with `ENOSPC`. -/
def errFile : VmFile :=
  ⟨fun _ _ => .error .ENOSPC, .ok 8⟩

/-- A one-page 4-byte region over `errFile`. -/
def errRegion : MmapRegion :=
  MmapRegion.new ⟨0x1000, 0x1004⟩ errFile 0 .Size4K

/-- Witness for C9 (amended): an `ENOSPC` from `read_at` is propagated unchanged,
and the short read of `shortRegion` is returned as produced. -/
theorem get_buf_single_read_witness :
    errRegion.get_buf 0x1000 = some (.error .ENOSPC, errRegion.populated) ∧
    shortRegion.get_buf 0x1000 = some (.ok [1, 0, 0, 0], insert 0x1000 shortRegion.populated) :=
  ⟨(get_buf_single_read errRegion 0x1000 0x1000 8 (by decide) (by decide) (by decide)
      (by decide) rfl (by decide) (by decide)).1 .ENOSPC rfl,
   (get_buf_single_read shortRegion 0x1000 0x1000 8 (by decide) (by decide) (by decide)
      (by decide) rfl (by decide) (by decide)).2 1 [1, 0, 0, 0] rfl⟩

/-- A one-page region `[0x1000, 0x2000)` used for the C10 boundary case. -/
def exRegionB : MmapRegion :=
  MmapRegion.new ⟨0x1000, 0x2000⟩ exFile 0 .Size4K

/-- C10 counterexample: for `vaddr = 0x2000` the aligned page equals
`range.stop` ("at range.end"), where the claim asserts the unchecked
subtractions underflow; in fact `get_buf` completes without underflow and
returns a defined result. -/
theorem get_buf_underflow_counterexample :
    alignDown 0x2000 PageSize.Size4K.toNat = exRegionB.range.stop ∧
    exRegionB.get_buf 0x2000 ≠ none := by
  refine ⟨by decide, ?_⟩
  have h : exRegionB.get_buf 0x2000 = some (.ok [], insert 0x2000 ∅) := rfl
  rw [h]
  simp

/-- C10 (amended): `get_buf` performs no containment check on its address; the
unstated precondition is that the aligned page `p` lies in
`[range.start, range.stop]`, where the two unchecked subtractions are
well-defined; when `p` is below `range.start` (and not populated) the first
subtraction `p - range.start` underflows, and when `p` is strictly above
`range.stop` the subtraction `range.stop - p` underflows provided the
populated and file-offset checks pass first. -/
theorem get_buf_underflow (r : MmapRegion) (vaddr : Nat) (p : Nat)
    (hpage : alignDown vaddr r.align.toNat = p) :
    (r.range.start ≤ p → p ≤ r.range.stop → r.get_buf vaddr ≠ none) ∧
    (p < r.range.start → p ∉ r.populated → r.get_buf vaddr = none) ∧
    (∀ flen, r.range.stop < p → p ∉ r.populated → r.file.len = .ok flen →
      0 ≤ r.offset + ((p - r.range.start : Nat) : Int) →
      r.offset + ((p - r.range.start : Nat) : Int) < (flen : Int) →
      r.get_buf vaddr = none) := by
  refine ⟨?_, ?_, ?_⟩
  · intro hstart hstop
    by_cases hp : p ∈ r.populated
    · unfold MmapRegion.get_buf
      rw [hpage, if_pos hp]
      simp
    · rw [MmapRegion.get_buf_cases r vaddr p hpage hp hstart]
      by_cases h1 : r.offset + ((p - r.range.start : Nat) : Int) < 0
      · rw [if_pos h1]; simp
      · rw [if_neg h1]
        rcases hlen : r.file.len with e | flen
        · dsimp only; simp
        · dsimp only
          by_cases h2 : (flen : Int) ≤ r.offset + ((p - r.range.start : Nat) : Int)
          · rw [if_pos h2]; simp
          · rw [if_neg h2, checkedSub_of_le hstop]
            dsimp only
            rcases hra : r.file.read_at
                (List.replicate (min r.align.toNat (r.range.stop - p)) 0)
                (r.offset + ((p - r.range.start : Nat) : Int)).toNat with e | nb
            · dsimp only; simp
            · rcases nb with ⟨n, buf⟩
              dsimp only
              simp
  · intro hlt hp
    unfold MmapRegion.get_buf
    rw [hpage, if_neg hp, checkedSub_of_gt hlt]
  · intro flen hgt hp hlen hlo hhi
    by_cases hstart : r.range.start ≤ p
    · rw [MmapRegion.get_buf_cases r vaddr p hpage hp hstart, hlen]
      rw [if_neg (by omega)]
      dsimp only
      rw [if_neg (by omega), checkedSub_of_gt hgt]
    · unfold MmapRegion.get_buf
      rw [hpage, if_neg hp, checkedSub_of_gt (by omega)]

/-- Witness for C10 (amended): a page below the region start underflows, and a
page inside the region does not. -/
theorem get_buf_underflow_witness :
    exRegionHigh.get_buf 0x1000 = none ∧
    exRegionHigh.get_buf 0x2800 ≠ none :=
  ⟨(get_buf_underflow exRegionHigh 0x1000 0x1000 (by decide)).2.1 (by decide) (by decide),
   (get_buf_underflow exRegionHigh 0x2800 0x2000 (by decide)).1 (by decide) (by decide)⟩

/-! ### find_region -/

/-- Two ranges both containing an address overlap. -/
theorem overlaps_of_contains {A B : VirtAddrRange} {a : Nat}
    (hA : A.contains a = true) (hB : B.contains a = true) : A.overlaps B = true := by
  rw [VirtAddrRange.contains_iff] at hA hB
  rw [VirtAddrRange.overlaps_iff]
  omega

/-- C8: `find_region a` returns `some R` iff `R` contains `a` and is the first
such region in insertion order; it returns `none` iff no managed region
contains `a`; under the pairwise-disjointness invariant, the returned region
is the unique region containing `a`. -/
theorem find_region_spec (m : VmaManager) (a : Nat) :
    (∀ R, m.find_region a = some R ↔
      (R.contains a = true ∧ ∃ l1 l2, m.regions = l1 ++ R :: l2 ∧
        ∀ S ∈ l1, S.contains a = false)) ∧
    (m.find_region a = none ↔ ∀ R ∈ m.regions, R.contains a = false) ∧
    (m.regions.Pairwise (fun x y => x.range.overlaps y.range = false) →
      ∀ R, m.find_region a = some R →
        ∀ S ∈ m.regions, S.contains a = true → S = R) := by
  refine ⟨?_, ?_, ?_⟩
  · intro R
    unfold VmaManager.find_region
    rw [List.find?_eq_some]
    simp only [Bool.not_eq_eq_eq_not, Bool.not_true]
  · unfold VmaManager.find_region
    rw [List.find?_eq_none]
    simp only [Bool.not_eq_true]
  · intro hdisj R hR S hS hSc
    have hR' : m.regions.find? (fun r => r.contains a) = some R := hR
    have hRc : R.range.contains a = true := by
      have h0 := List.find?_some hR'
      exact h0
    have hSc' : S.range.contains a = true := hSc
    have hRmem : R ∈ m.regions := List.mem_of_find?_eq_some hR'
    rcases pairwise_mem_cases hdisj hS hRmem with heq | hno | hno
    · exact heq
    · have hover : S.range.overlaps R.range = true := overlaps_of_contains hSc' hRc
      simp [hno] at hover
    · have hover : R.range.overlaps S.range = true := overlaps_of_contains hRc hSc'
      simp [hno] at hover

/-- Witness for C8: lookup inside the first region, and a miss between
regions. -/
theorem find_region_spec_witness :
    (VmaManager.mk [exRegion, exRegion2]).find_region 0x1500 = some exRegion ∧
    (VmaManager.mk [exRegion, exRegion2]).find_region 0x4500 = none :=
  ⟨((find_region_spec (VmaManager.mk [exRegion, exRegion2]) 0x1500).1 exRegion).mpr
      ⟨by decide, [], [exRegion2], rfl, by simp⟩,
   (find_region_spec (VmaManager.mk [exRegion, exRegion2]) 0x4500).2.1.mpr (by decide)⟩
